import Mathlib

/-!
Verification of the dictionary toolchain's text-processing core:
stress placement (scripts/utils/text_processing.py), collation
(scripts/utils/sorting.py), validators (scripts/validators/id_collision.py),
entry loading (scripts/utils/export_base.py, scripts/to_csv.py) and form
simplification (scripts/utils.py vs scripts/utils/entry_helpers.py).

Strings are modelled as lists of characters.  Python's unbounded loops are
totalized with a fuel parameter that provably suffices on all states the
program can reach; branches that correspond to Python non-termination are
marked in comments.
-/

set_option maxRecDepth 20000

namespace Dict

/-- Strings, modelled as lists of characters. -/
abbrev Str := List Char

/-- Upper-to-lower case table for the scripts this lexicon uses (basic
Latin and Russian Cyrillic), modelling Python's str.lower(). -/
def caseTable : List (Char × Char) :=
  [('A', 'a'), ('B', 'b'), ('C', 'c'), ('D', 'd'), ('E', 'e'), ('F', 'f'),
   ('G', 'g'), ('H', 'h'), ('I', 'i'), ('J', 'j'), ('K', 'k'), ('L', 'l'),
   ('M', 'm'), ('N', 'n'), ('O', 'o'), ('P', 'p'), ('Q', 'q'), ('R', 'r'),
   ('S', 's'), ('T', 't'), ('U', 'u'), ('V', 'v'), ('W', 'w'), ('X', 'x'),
   ('Y', 'y'), ('Z', 'z'),
   ('А', 'а'), ('Б', 'б'), ('В', 'в'), ('Г', 'г'), ('Д', 'д'), ('Е', 'е'),
   ('Ж', 'ж'), ('З', 'з'), ('И', 'и'), ('Й', 'й'), ('К', 'к'), ('Л', 'л'),
   ('М', 'м'), ('Н', 'н'), ('О', 'о'), ('П', 'п'), ('Р', 'р'), ('С', 'с'),
   ('Т', 'т'), ('У', 'у'), ('Ф', 'ф'), ('Х', 'х'), ('Ц', 'ц'), ('Ч', 'ч'),
   ('Ш', 'ш'), ('Щ', 'щ'), ('Ъ', 'ъ'), ('Ы', 'ы'), ('Ь', 'ь'), ('Э', 'э'),
   ('Ю', 'ю'), ('Я', 'я'), ('Ё', 'ё')]

/-- Model of Python's str.lower() on one character: characters outside the
table (already lowercase, digits, punctuation, combining marks) are
fixed. -/
def lowerChar (c : Char) : Char :=
  ((caseTable.find? (fun p => p.1 == c)).map Prod.snd).getD c

/-- str.lower() applied characterwise. -/
def lowerStr (s : Str) : Str := s.map lowerChar

/-- The uniform stress marker the two IPA stress symbols are normalized to. -/
def marker : Char := '\''

/-- The combining acute accent U+0301 inserted into headwords. -/
def stressMark : Char := '́'

/-- The vowel map passed to mark_stress: association list from IPA vowel
symbol to its orthographic grapheme (a Python dict, so keys are unique). -/
abbrev VMap := List (Char × Str)

/-- Python `char in vowels` (dict key membership). -/
def isVowel (vm : VMap) (c : Char) : Bool :=
  (vm.find? (fun p => p.1 == c)).isSome

/-- Python `vowels[char]` (dict lookup; total here, defaulting to the empty
string, but only ever called after an isVowel check as in the source). -/
def vget (vm : VMap) (c : Char) : Str :=
  ((vm.find? (fun p => p.1 == c)).map Prod.snd).getD []

/-- A lexicon entry as consumed by mark_stress: `headword` is always
present; `ipa` is `none` when the key is absent. -/
structure Entry where
  headword : Str
  ipa : Option Str

/-- `entry['ipa'].replace('ˈ', "'").replace('ˌ', "'")`. -/
def normalizeIpa (s : Str) : Str :=
  s.map (fun c => if c = 'ˈ' ∨ c = 'ˌ' then marker else c)

/-- `ipa[:n] + ipa[n+1:]`. -/
def deleteAt (l : Str) (n : Nat) : Str := l.take n ++ l.drop (n + 1)

/-- One-for-one embedding of the predictability-pass while loop of
mark_stress.  State: current ipa string, i_stress (Int: initially -1),
i_word, v_count, i_char.  The fuel argument totalizes the loop; the
top-level predPass supplies enough fuel for every state the loop can
actually reach (the measure ipa.length - i_char strictly decreases).  The
inner guard on iStress.toNat < ipa.length covers a state in which Python
would loop forever (deleting at an out-of-range index is a no-op there);
that state is unreachable from the initial one. -/
def predPassAux (vm : VMap) : Nat → Str → Int → Nat → Nat → Nat → Str
  | 0, ipa, _, _, _, _ => ipa
  | fuel + 1, ipa, iStress, iWord, vCount, iChar =>
    if h : iChar < ipa.length then
      let c := ipa[iChar]
      let iStress' : Int := if c = marker then (iChar : Int) else iStress
      let vCount' : Nat :=
        if c = marker then vCount
        else if isVowel vm c then vCount + 1 else vCount
      if c = ' ' ∨ c = '-' ∨ iChar = ipa.length - 1 then
        if vCount' ≤ 1 ∧ (iWord : Int) ≤ iStress' then
          if iStress'.toNat < ipa.length then
            predPassAux vm fuel (deleteAt ipa iStress'.toNat) iStress' iChar 0 iChar
          else
            ipa  -- Python loops forever here; unreachable from the initial state
        else
          predPassAux vm fuel ipa iStress' (iChar + 1) 0 (iChar + 1)
      else
        predPassAux vm fuel ipa iStress' iWord vCount' (iChar + 1)
    else ipa

/-- The predictability pass: remove predictable stress markers. -/
def predPass (vm : VMap) (ipa : Str) : Str :=
  predPassAux vm (ipa.length + 1) ipa (-1) 0 0 0

/-- Helper for str.find: scan suffixes of `s`, indices starting at `i`. -/
def findSubAux (pat : Str) : Str → Nat → Option Nat
  | s, i =>
    if pat.isPrefixOf s then some i
    else
      match s with
      | [] => none
      | _ :: rest => findSubAux pat rest (i + 1)

/-- Python `hw.find(pat, start)`: least index ≥ start where `pat` occurs as
a contiguous substring, `none` (Python -1) when there is none. -/
def findSub (hw pat : Str) (start : Nat) : Option Nat :=
  if start ≤ hw.length then findSubAux pat (hw.drop start) start else none

/-- `headword[:i+1] + '́' + headword[i+1:]` with k = i+1. -/
def insertMark (hw : Str) (k : Nat) : Str :=
  hw.take k ++ stressMark :: hw.drop k

/-- One-for-one embedding of the placement-pass for loop of mark_stress.
`start` is i_vowel + 1 (i_vowel starts at -1, so start starts at 0);
`needs` is needs_stress.  Returns `none` when a grapheme lookup fails
(the loop's early `return entry['headword']`). -/
def placePass (vm : VMap) : Str → Str → Nat → Bool → Option Str
  | [], hw, _, _ => some hw
  | c :: rest, hw, start, needs =>
    let needs' := if c = marker then true else needs
    if isVowel vm c then
      match findSub hw (vget vm c) start with
      | none => none
      | some i =>
        if needs' then
          placePass vm rest (insertMark hw (i + 1)) (i + 2) false
        else
          placePass vm rest hw (i + 1) needs'
    else
      placePass vm rest hw start needs'

/-- mark_stress from scripts/utils/text_processing.py (identical to the
copy in scripts/utils.py). -/
def mark_stress (e : Entry) (vm : VMap) : Str :=
  match e.ipa with
  | none => e.headword
  | some ipaRaw =>
    if ipaRaw.isEmpty then e.headword
    else
      let ipa2 := predPass vm (normalizeIpa ipaRaw)
      if marker ∈ ipa2 then
        match placePass vm ipa2 e.headword 0 false with
        | some hw => hw
        | none => e.headword
      else e.headword

/-- Number of stress markers in an IPA string. -/
def markerCount (s : Str) : Nat := s.count marker

/-- Number of vowel symbols (per the vowel map) in an IPA string. -/
def vowelCount (vm : VMap) (s : Str) : Nat := s.countP (fun c => isVowel vm c)

/-- Spec-side matching discipline of the placement pass: for each IPA vowel
symbol, find the next occurrence of its grapheme in the headword starting
strictly after the previous match; returns the cursor (last match + 1). -/
def chainFind (vm : VMap) : Str → Str → Nat → Option Nat
  | [], _, s => some s
  | c :: rest, hw, s =>
    if isVowel vm c then
      match findSub hw (vget vm c) s with
      | none => none
      | some i => chainFind vm rest hw (i + 1)
      else chainFind vm rest hw s

/-! ### Sorting (scripts/utils/sorting.py) -/

/-- `alphabet_full = ['-', ' '] + alphabet`. -/
def alphabetFull (alphabet : List Str) : List Str :=
  [['-'], [' ']] ++ alphabet

/-- Python's enumerate, starting at `n`. -/
def enumFrom (n : Nat) : List Str → List (Nat × Str)
  | [] => []
  | a :: l => (n, a) :: enumFrom (n + 1) l

/-- `letter_order.get(token, 999)` where
`letter_order = {letter: i for i, letter in enumerate(alphabet_full)}`:
a Python dict comprehension keeps the value of the last occurrence of a
duplicated key, hence the lookup over the reversed enumeration. -/
def letterOrderGet (full : List Str) (t : Str) : Nat :=
  match (enumFrom 0 full).reverse.find? (fun p => p.2 == t) with
  | some p => p.1
  | none => 999

/-- The inner while loop of `tokenize`, totalized by fuel (one unit per
loop iteration; each iteration consumes at least one character of the word
unless the inventory contains the empty grapheme, in which case Python
would loop forever — modelled by returning the tokens so far). -/
def tokenizeAux (tokens : List Str) : Nat → Str → List Str
  | 0, _ => []
  | _ + 1, [] => []
  | fuel + 1, c :: rest =>
    match tokens.find? (fun t => t.isPrefixOf (c :: rest)) with
    | some t =>
      if t.isEmpty then []  -- Python loops forever on an empty grapheme
      else t :: tokenizeAux tokens fuel ((c :: rest).drop t.length)
    | none => [c] :: tokenizeAux tokens fuel rest

/-- `tokenize(word)`: lowercase, then repeatedly take the first matching
grapheme of `alphabet_tokens` (which the callers pass sorted by descending
length), emitting unmatched characters as singletons. -/
def tokenize (tokens : List Str) (word : Str) : List Str :=
  tokenizeAux tokens (lowerStr word).length (lowerStr word)

/-- `sorting_key(entry)` from create_tokenizer: lowercase the headword,
strip combining acute accents, tokenize, and map through letter_order.
(The source wraps this in try/except, but no reachable branch raises.) -/
def sorting_key (alphabet tokens : List Str) (e : Entry) : List Nat :=
  (tokenize tokens ((lowerStr e.headword).filter (fun c => c ≠ stressMark))).map
    (letterOrderGet (alphabetFull alphabet))

/-! ### ID-collision validation (scripts/validators/id_collision.py) -/

/-- One YAML file as seen by validate_id_collisions: its path and the id it
contributes (`none` when the loaded data is falsy or has no 'id' key). -/
structure YFile where
  path : Str
  entryId : Option Str

/-- `id_to_files[id].append(path)` on a defaultdict(list): append to the
existing key, else add the key at the end (dict insertion order). -/
def addFile (m : List (Str × List Str)) (i : Str) (p : Str) : List (Str × List Str) :=
  match m with
  | [] => [(i, [p])]
  | (k, ps) :: rest =>
    if k = i then (k, ps ++ [p]) :: rest else (k, ps) :: addFile rest i p

/-- The id_to_files table built by the scan loop. -/
def id_to_files (files : List YFile) : List (Str × List Str) :=
  files.foldl
    (fun m f => match f.entryId with | none => m | some i => addFile m i f.path)
    []

/-- The collisions reported by the printing loop: every id mapped to more
than one file, together with all of its files. -/
def collisions (files : List YFile) : List (Str × List Str) :=
  (id_to_files files).filter (fun p => 1 < p.2.length)

/-- validate_id_collisions: `none` (Python None) on failure, `some true`
(Python True) on success. -/
def validate_id_collisions (files : List YFile) : Option Bool :=
  if collisions files = [] then some true else none

/-- Spec-side description: all files contributing a given id. -/
def filesWithId (files : List YFile) (i : Str) : List Str :=
  (files.filter (fun f => f.entryId = some i)).map YFile.path

/-! ### Entry loading (scripts/utils/export_base.py, scripts/to_csv.py) -/

/-- A parsed YAML entry record, reduced to what validate_entry inspects
(presence of the required keys) plus a payload distinguishing records. -/
structure YamlRec where
  hasId : Bool
  hasHeadword : Bool
  hasDefs : Bool
  payload : Nat

/-- validate_entry: all of 'id', 'headword', 'definitions' present. -/
def validate_entry (y : YamlRec) : Bool :=
  y.hasId && y.hasHeadword && y.hasDefs

/-- The inner per-letter file loop of load_lexicon_entries: `none` models a
file whose load raises (or whose data breaks the validator); a validated
record is appended and counted, an invalid one is skipped and counted. -/
def processFiles (validate : YamlRec → Bool) :
    List (Option YamlRec) → List YamlRec × Nat × Nat
  | [] => ([], 0, 0)
  | f :: rest =>
    let r := processFiles validate rest
    match f with
    | none => (r.1, r.2.1, r.2.2 + 1)
    | some y =>
      if validate y then (y :: r.1, r.2.1 + 1, r.2.2) else (r.1, r.2.1, r.2.2 + 1)

/-- load_lexicon_entries: walk the alphabet; a letter with no directory is
only warned about; otherwise its files are processed in order and the
per-letter entry lists and the global total/skipped counters accumulate. -/
def load_lexicon_entries (validate : YamlRec → Bool) (alphabet : List Str)
    (fs : Str → Option (List (Option YamlRec))) :
    List (Str × List YamlRec) × Nat × Nat :=
  match alphabet with
  | [] => ([], 0, 0)
  | letter :: rest =>
    let r := load_lexicon_entries validate rest fs
    match fs letter with
    | none => r
    | some files =>
      let p := processFiles validate files
      ((letter, p.1) :: r.1, p.2.1 + r.2.1, p.2.2 + r.2.2)

/-- Modelled exit status of scripts/to_csv.py main(): the function ends
with print_export_stats and never calls sys.exit, so the process exits 0
regardless of how many entries were skipped. -/
def to_csv_exitCode (_alphabet : List Str)
    (_fs : Str → Option (List (Option YamlRec))) : Nat := 0

/-- Modelled exit status of scripts/validate.py main(): exits 1 iff
validate_id_collisions returned None (tag validation is commented out and
its stand-in result False is not None). -/
def validate_exitCode (files : List YFile) : Nat :=
  match validate_id_collisions files with
  | none => 1
  | some _ => 0

/-! ### simplify_forms (scripts/utils.py vs scripts/utils/entry_helpers.py) -/

/-- One entry of the YAML `forms` list. -/
structure FormRec where
  text : Option Str
  gloss : Option Str

/-- Python str.split() word characters: split on runs of whitespace. -/
def isWs (c : Char) : Bool := c = ' ' ∨ c = '\t' ∨ c = '\n' ∨ c = '\r'

/-- Helper for str.split(): accumulate the current word reversed. -/
def splitWsGo : Str → Str → List Str
  | [], cur => if cur.isEmpty then [] else [cur.reverse]
  | c :: rest, cur =>
    if isWs c then
      if cur.isEmpty then splitWsGo rest [] else cur.reverse :: splitWsGo rest []
    else splitWsGo rest (c :: cur)

/-- Python str.split() with no argument. -/
def splitWs (s : Str) : List Str := splitWsGo s []

/-- `text.split()[-1]`; the empty-split case would raise IndexError in
Python (only reachable for all-whitespace text) and is defaulted here. -/
def lastWord (t : Str) : Str := (splitWs t).getLast?.getD []

/-- The per-form loop of the legacy scripts/utils.py simplify_forms:
compound verbs collapse the form to `'~ ' + text.split()[-1]`. -/
def legacyGo (isCompound : Bool) (hw : Str) : List FormRec → List Str
  | [] => []
  | f :: rest =>
    let t0 := f.text.getD []
    if t0.isEmpty ∨ t0 = hw then legacyGo isCompound hw rest
    else
      let t1 := if isCompound then '~' :: ' ' :: lastWord t0 else t0
      let t2 := if f.gloss = some ("obl".toList) then t1 ++ ['-'] else t1
      t2 :: legacyGo isCompound hw rest

/-- simplify_forms from the legacy module scripts/utils.py. -/
def simplify_forms_legacy (forms : List FormRec) (hw : Str) (tags : List Str) :
    List Str :=
  if forms.isEmpty then []
  else legacyGo (decide ("v".toList ∈ tags) && decide (' ' ∈ hw)) hw forms

/-- The per-form loop of the package scripts/utils/entry_helpers.py
simplify_forms: compound verbs collapse the form to `text.split()[-1]`
without the tilde. -/
def pkgGo (isCompound : Bool) (hw : Str) : List FormRec → List Str
  | [] => []
  | f :: rest =>
    let t0 := f.text.getD []
    if t0.isEmpty ∨ t0 = hw then pkgGo isCompound hw rest
    else
      let t1 := if isCompound then lastWord t0 else t0
      let t2 := if f.gloss = some ("obl".toList) then t1 ++ ['-'] else t1
      t2 :: pkgGo isCompound hw rest

/-- simplify_forms from the package scripts/utils/entry_helpers.py. -/
def simplify_forms_pkg (forms : List FormRec) (hw : Str) (tags : List Str) :
    List Str :=
  if forms.isEmpty then []
  else pkgGo (decide ("v".toList ∈ tags) && decide (' ' ∈ hw)) hw forms

/-! ## Basic helper lemmas -/

theorem lowerChar_idem (c : Char) : lowerChar (lowerChar c) = lowerChar c := by
  unfold lowerChar
  cases h : caseTable.find? (fun p => p.1 == c) with
  | none => simp [h]
  | some p =>
    have hmem : p ∈ caseTable := List.mem_of_find?_eq_some h
    have hkeys : ∀ q ∈ caseTable, ∀ r ∈ caseTable, ¬(q.1 = r.2) := by decide
    have : caseTable.find? (fun q => q.1 == p.2) = none := by
      rw [List.find?_eq_none]
      intro q hq
      simpa using hkeys q hq p hmem
    simp [h, this]

theorem lowerStr_self_of_lower (s : Str) :
    lowerStr (lowerStr s) = lowerStr s := by
  simp [lowerStr, lowerChar_idem]

theorem lowerStr_filter_self (w : Str) (p : Char → Bool) :
    lowerStr ((lowerStr w).filter p) = (lowerStr w).filter p := by
  unfold lowerStr
  have : ∀ l : Str, (∀ c ∈ l, lowerChar c = c) → List.map lowerChar l = l := by
    intro l h
    induction l with
    | nil => rfl
    | cons a l ih =>
      simp only [List.map_cons, h a (List.mem_cons_self a l)]
      rw [ih (fun c hc => h c (List.mem_cons_of_mem a hc))]
  apply this
  intro c hc
  have hc2 : c ∈ List.map lowerChar w := List.mem_of_mem_filter hc
  obtain ⟨a, _, rfl⟩ := List.mem_map.mp hc2
  exact lowerChar_idem a

/-! ## C8: absent-IPA passthrough -/

/-- **C8** (confirmed): for every entry with no ipa field or an empty ipa
string, mark_stress returns the headword unchanged. -/
theorem mark_stress_absent_ipa (e : Entry) (vm : VMap)
    (h : e.ipa = none ∨ e.ipa = some []) :
    mark_stress e vm = e.headword := by
  rcases h with h | h <;> simp [mark_stress, h]

/-- Witness for C8 at a concrete entry without ipa. -/
theorem mark_stress_absent_ipa_witness :
    mark_stress ⟨"аб".toList, none⟩ [] = "аб".toList :=
  mark_stress_absent_ipa ⟨"аб".toList, none⟩ [] (Or.inl rfl)

/-! ## C3: fail-soft stress placement -/

/-- **C3** (confirmed): mark_stress is a total function whose result is
either the untouched headword or a successful placement-pass output; in
particular, when a grapheme lookup in the placement pass fails (Python
`find` returns -1), the original headword is returned. -/
theorem mark_stress_failsoft :
    (∀ (e : Entry) (vm : VMap),
      mark_stress e vm = e.headword ∨
      ∃ out,
        placePass vm (predPass vm (normalizeIpa (e.ipa.getD []))) e.headword 0 false
            = some out
          ∧ mark_stress e vm = out)
    ∧ (∀ (e : Entry) (vm : VMap) (raw : Str), e.ipa = some raw →
        placePass vm (predPass vm (normalizeIpa raw)) e.headword 0 false = none →
        mark_stress e vm = e.headword) := by
  constructor
  · intro e vm
    rcases e with ⟨hw, ipa⟩
    cases ipa with
    | none => exact Or.inl rfl
    | some raw =>
      simp only [mark_stress, Option.getD]
      by_cases hre : raw.isEmpty
      · simp [hre]
      · simp only [if_neg hre]
        by_cases hm : marker ∈ predPass vm (normalizeIpa raw)
        · simp only [if_pos hm]
          cases hp : placePass vm (predPass vm (normalizeIpa raw)) hw 0 false with
          | none => exact Or.inl rfl
          | some out => exact Or.inr ⟨out, rfl, rfl⟩
        · simp [hm]
  · intro e vm raw hraw hfail
    rcases e with ⟨hw, ipa⟩
    cases hraw
    simp only [mark_stress]
    by_cases hre : raw.isEmpty
    · simp [hre]
    · simp only [if_neg hre]
      by_cases hm : marker ∈ predPass vm (normalizeIpa raw)
      · simp only [if_pos hm, hfail]
      · simp [hm]

/-- Witness for C3: a headword with no matching grapheme makes the
placement pass fail, and mark_stress returns the original headword. -/
theorem mark_stress_failsoft_witness :
    mark_stress ⟨"б".toList, some "aˈa".toList⟩ [('a', "а".toList)] = "б".toList :=
  mark_stress_failsoft.2 ⟨"б".toList, some "aˈa".toList⟩ [('a', "а".toList)]
    ("aˈa".toList) rfl (by decide)

/-! ## C10: the two simplify_forms implementations -/

theorem legacyGo_pkgGo_agree (hw : Str) (forms : List FormRec) :
    legacyGo false hw forms = pkgGo false hw forms := by
  induction forms with
  | nil => rfl
  | cons f rest ih => simp [legacyGo, pkgGo, ih]

/-- **C10 counterexample**: on a compound verb (tag 'v' and a space in the
headword) the legacy simplify_forms prepends a tilde while the package one
does not, so the two modules are not interchangeable. -/
theorem simplify_forms_not_equiv :
    simplify_forms_legacy [⟨some "а б".toList, none⟩] "в г".toList ["v".toList]
      ≠ simplify_forms_pkg [⟨some "а б".toList, none⟩] "в г".toList ["v".toList] := by
  decide

/-- **C10** (corrected): the legacy scripts/utils.py simplify_forms and
the package scripts/utils/entry_helpers.py simplify_forms agree on every
input that is not a compound verb (no 'v' tag, or no space in the
headword); on compound verbs the legacy one prepends '~ ' to each
collapsed form. -/
theorem simplify_forms_equiv (forms : List FormRec) (hw : Str) (tags : List Str)
    (h : ¬(("v".toList ∈ tags) ∧ ' ' ∈ hw)) :
    simplify_forms_legacy forms hw tags = simplify_forms_pkg forms hw tags := by
  unfold simplify_forms_legacy simplify_forms_pkg
  have hb : (decide ("v".toList ∈ tags) && decide (' ' ∈ hw)) = false := by
    by_cases h1 : "v".toList ∈ tags
    · have h2 : ¬(' ' ∈ hw) := fun h2 => h ⟨h1, h2⟩
      rw [decide_eq_false h2, Bool.and_false]
    · rw [decide_eq_false h1, Bool.false_and]
  rw [hb]
  by_cases hf : forms.isEmpty
  · simp [hf]
  · simp only [if_neg hf]
    exact legacyGo_pkgGo_agree hw forms

/-- Witness for C10's amended equivalence at a non-compound entry. -/
theorem simplify_forms_equiv_witness :
    simplify_forms_legacy [⟨some "а б".toList, none⟩] "вг".toList ["v".toList]
      = simplify_forms_pkg [⟨some "а б".toList, none⟩] "вг".toList ["v".toList] :=
  simplify_forms_equiv [⟨some "а б".toList, none⟩] "вг".toList ["v".toList]
    (by decide)

/-! ## C6: stress marks never affect the sorting key -/

theorem lowerChar_stressMark : lowerChar stressMark = stressMark := by decide

/-- Inserting a combining acute accent is invisible after lowercasing and
stripping the accents. -/
theorem filter_insertMark (hw : Str) (k : Nat) :
    (lowerStr (insertMark hw k)).filter (fun c => c ≠ stressMark)
      = (lowerStr hw).filter (fun c => c ≠ stressMark) := by
  have h1 : insertMark hw k = hw.take k ++ [stressMark] ++ hw.drop k := by
    unfold insertMark
    simp
  rw [h1]
  unfold lowerStr
  rw [List.map_append, List.map_append, List.filter_append, List.filter_append]
  have h2 : List.filter (fun c => c ≠ stressMark) (List.map lowerChar [stressMark])
      = [] := by decide
  rw [h2, List.append_nil, ← List.filter_append, ← List.map_append,
    List.take_append_drop]

/-- A successful placement pass only inserts combining acute accents:
after lowercasing and stripping the accents, its output and input
headwords agree. -/
theorem placePass_strip (vm : VMap) :
    ∀ (chars hw : Str) (start : Nat) (needs : Bool) (out : Str),
      placePass vm chars hw start needs = some out →
      (lowerStr out).filter (fun c => c ≠ stressMark)
        = (lowerStr hw).filter (fun c => c ≠ stressMark) := by
  intro chars
  induction chars with
  | nil =>
    intro hw start needs out h
    simp only [placePass, Option.some.injEq] at h
    rw [h]
  | cons c rest ih =>
    intro hw start needs out h
    simp only [placePass] at h
    split at h
    next hv =>
      split at h
      next hfs => exact Option.noConfusion h
      next i hfs =>
        cases hn : (if c = marker then true else needs) with
        | false =>
          rw [hn, if_neg Bool.false_ne_true] at h
          exact ih _ _ _ _ h
        | true =>
          rw [hn, if_pos rfl] at h
          have hrec := ih _ _ _ _ h
          rw [hrec, filter_insertMark]
    next hv => exact ih _ _ _ _ h

/-- mark_stress only ever adds combining acute accents to the headword. -/
theorem mark_stress_strip (e : Entry) (vm : VMap) :
    (lowerStr (mark_stress e vm)).filter (fun c => c ≠ stressMark)
      = (lowerStr e.headword).filter (fun c => c ≠ stressMark) := by
  rcases e with ⟨hw, ipa⟩
  cases ipa with
  | none => rfl
  | some raw =>
    simp only [mark_stress]
    by_cases hre : raw.isEmpty
    · simp [hre]
    · simp only [if_neg hre]
      by_cases hm : marker ∈ predPass vm (normalizeIpa raw)
      · simp only [if_pos hm]
        cases hp : placePass vm (predPass vm (normalizeIpa raw)) hw 0 false with
        | none => rfl
        | some out => exact placePass_strip vm _ _ _ _ _ hp
      · simp [hm]

/-- **C6** (confirmed): for every entry, vowel map, alphabet and token
inventory, the sorting key of the stress-marked headword equals the
sorting key of the original headword — sorting_key strips U+0301 before
tokenizing, and mark_stress only inserts U+0301. -/
theorem sorting_key_stress_invariant (alphabet tokens : List Str) (e : Entry)
    (vm : VMap) (o : Option Str) :
    sorting_key alphabet tokens ⟨mark_stress e vm, o⟩
      = sorting_key alphabet tokens e := by
  unfold sorting_key tokenize
  rw [show (⟨mark_stress e vm, o⟩ : Entry).headword = mark_stress e vm from rfl,
    mark_stress_strip e vm]

/-! ## C4: digraph-aware longest-match tokenization -/

/-- In a list sorted by descending length, the first element satisfying a
predicate is at least as long as every element satisfying it. -/
theorem find?_first_longest (p : Str → Bool) :
    ∀ (tokens : List Str), tokens.Pairwise (fun a b => b.length ≤ a.length) →
      ∀ t, tokens.find? p = some t →
        ∀ d ∈ tokens, p d = true → d.length ≤ t.length := by
  intro tokens
  induction tokens with
  | nil => intro _ t hf; cases hf
  | cons x xs ih =>
    intro hs t hf d hd hpd
    rcases List.pairwise_cons.mp hs with ⟨hx, hxs⟩
    by_cases hpx : p x = true
    · rw [List.find?_cons_of_pos _ hpx] at hf
      cases hf
      rcases List.mem_cons.mp hd with rfl | hd2
      · exact le_refl _
      · exact hx d hd2
    · rw [List.find?_cons_of_neg _ (by simpa using hpx)] at hf
      rcases List.mem_cons.mp hd with rfl | hd2
      · exact absurd hpd hpx
      · exact ih hxs t hf d hd2 hpd

/-- tokenizeAux does not depend on the fuel once it covers the word
length. -/
theorem tokenizeAux_fuel (tokens : List Str) :
    ∀ (f1 f2 : Nat) (w : Str), w.length ≤ f1 → w.length ≤ f2 →
      tokenizeAux tokens f1 w = tokenizeAux tokens f2 w := by
  intro f1
  induction f1 with
  | zero =>
    intro f2 w h1 _
    have hw : w = [] := List.length_eq_zero.mp (Nat.le_zero.mp h1)
    subst hw
    cases f2 <;> rfl
  | succ f ih =>
    intro f2 w h1 h2
    cases w with
    | nil => cases f2 <;> rfl
    | cons c rest =>
      cases f2 with
      | zero => exact absurd h2 (by simp)
      | succ g =>
        simp only [tokenizeAux]
        cases hm : tokens.find? (fun t => t.isPrefixOf (c :: rest)) with
        | none =>
          rw [ih g rest (by simpa using h1) (by simpa using h2)]
        | some t =>
          by_cases ht : t.isEmpty
          · simp [ht]
          · have htpos : 0 < t.length := by
              cases t with
              | nil => exact absurd rfl ht
              | cons a b => simp
            simp only [ht, if_false]
            have hlen : ((c :: rest).drop t.length).length ≤ f := by
              simp only [List.length_drop, List.length_cons]
              simp only [List.length_cons] at h1
              omega
            have hlen2 : ((c :: rest).drop t.length).length ≤ g := by
              simp only [List.length_drop, List.length_cons]
              simp only [List.length_cons] at h2
              omega
            rw [ih g _ hlen hlen2]

/-- When a token list is sorted by descending length, the tokenizer
consumes the longest matching token first. -/
theorem tokenizeAux_consume (tokens : List Str)
    (hs : tokens.Pairwise (fun a b => b.length ≤ a.length))
    (d rest : Str) (hd : d ∈ tokens) (hdne : d ≠ [])
    (hmax : ∀ u ∈ tokens, u <+: d ++ rest → u.length ≤ d.length) :
    tokenizeAux tokens (d ++ rest).length (d ++ rest)
      = d :: tokenizeAux tokens rest.length rest := by
  obtain ⟨c, d2, rfl⟩ : ∃ c d2, d = c :: d2 := by
    cases d with
    | nil => exact absurd rfl hdne
    | cons c d2 => exact ⟨c, d2, rfl⟩
  simp only [List.cons_append, List.length_cons, List.length_append]
  simp only [tokenizeAux]
  have hdpre : (c :: d2) <+: c :: (d2 ++ rest) := ⟨rest, by simp⟩
  cases hm : tokens.find? (fun t => t.isPrefixOf (c :: (d2 ++ rest))) with
  | none =>
    rw [List.find?_eq_none] at hm
    exact absurd (List.isPrefixOf_iff_prefix.mpr hdpre) (by simpa using hm _ hd)
  | some t =>
    have hpt : t.isPrefixOf (c :: (d2 ++ rest)) = true := by
      simpa using List.find?_some hm
    have htmem : t ∈ tokens := List.mem_of_find?_eq_some hm
    have htpre : t <+: c :: (d2 ++ rest) := List.isPrefixOf_iff_prefix.mp hpt
    have hle1 : t.length ≤ (c :: d2).length := by
      apply hmax t htmem
      simpa using htpre
    have hle2 : (c :: d2).length ≤ t.length :=
      find?_first_longest _ tokens hs t hm (c :: d2) hd
        (List.isPrefixOf_iff_prefix.mpr hdpre)
    have hteq : t = c :: d2 := by
      have h1 : t <+: c :: d2 :=
        List.prefix_of_prefix_length_le htpre hdpre hle1
      exact List.IsPrefix.eq_of_length h1 (le_antisymm hle1 hle2)
    subst hteq
    simp only [List.isEmpty_cons, Bool.false_eq_true, if_false]
    have hdrop : (c :: (d2 ++ rest)).drop (c :: d2).length = rest := by
      simp only [List.length_cons, List.drop_succ_cons]
      exact List.drop_left d2 rest
    rw [hdrop]
    rw [tokenizeAux_fuel tokens (d2.length + rest.length) rest.length rest
      (by simp) (le_refl _)]

/-- When no token matches, the tokenizer emits the first character as a
singleton. -/
theorem tokenizeAux_unmatched (tokens : List Str) (c : Char) (rest : Str)
    (hnone : ∀ u ∈ tokens, ¬ u <+: (c :: rest)) :
    tokenizeAux tokens (c :: rest).length (c :: rest)
      = [c] :: tokenizeAux tokens rest.length rest := by
  simp only [List.length_cons, tokenizeAux]
  have hm : tokens.find? (fun t => t.isPrefixOf (c :: rest)) = none := by
    rw [List.find?_eq_none]
    intro u hu
    simpa [List.isPrefixOf_iff_prefix] using hnone u hu
  rw [hm]

/-- **C4** (confirmed): with an inventory sorted by descending grapheme
length and without the empty grapheme, the tokenizer emits at each
position the unique longest matching grapheme (so a word beginning with a
declared digraph contributes the digraph, and its rank heads the sorting
key), and emits unmatched characters as singleton tokens instead of
failing. -/
theorem tokenize_longest_match (tokens : List Str)
    (hs : tokens.Pairwise (fun a b => b.length ≤ a.length))
    (hnil : [] ∉ tokens) :
    (∀ (w d rest : Str), lowerStr w = d ++ rest → d ∈ tokens →
      (∀ u ∈ tokens, u <+: d ++ rest → u.length ≤ d.length) →
      tokenize tokens w = d :: tokenizeAux tokens rest.length rest)
    ∧ (∀ (w : Str) (c : Char) (rest : Str), lowerStr w = c :: rest →
      (∀ u ∈ tokens, ¬ u <+: (c :: rest)) →
      tokenize tokens w = [c] :: tokenizeAux tokens rest.length rest)
    ∧ (∀ (alphabet : List Str) (e : Entry) (d rest : Str),
      (lowerStr e.headword).filter (fun c => c ≠ stressMark) = d ++ rest →
      d ∈ tokens →
      (∀ u ∈ tokens, u <+: d ++ rest → u.length ≤ d.length) →
      (sorting_key alphabet tokens e).head?
        = some (letterOrderGet (alphabetFull alphabet) d)) := by
  refine ⟨?_, ?_, ?_⟩
  · intro w d rest hlow hd hmax
    have hdne : d ≠ [] := fun h => hnil (h ▸ hd)
    unfold tokenize
    rw [hlow]
    exact tokenizeAux_consume tokens hs d rest hd hdne hmax
  · intro w c rest hlow hnone
    unfold tokenize
    rw [hlow]
    exact tokenizeAux_unmatched tokens c rest hnone
  · intro alphabet e d rest hfil hd hmax
    have hdne : d ≠ [] := fun h => hnil (h ▸ hd)
    unfold sorting_key tokenize
    have hlowfix : lowerStr ((lowerStr e.headword).filter (fun c => c ≠ stressMark))
        = (lowerStr e.headword).filter (fun c => c ≠ stressMark) :=
      lowerStr_filter_self e.headword _
    rw [hfil] at hlowfix
    rw [hfil, hlowfix, tokenizeAux_consume tokens hs d rest hd hdne hmax]
    simp

/-- Witness for C4: with the digraph кь declared, "кьаб" tokenizes with
the digraph first, and the digraph's rank heads its sorting key. -/
theorem tokenize_longest_match_witness :
    tokenize ["кь".toList, "-".toList, " ".toList, "а".toList, "б".toList,
        "в".toList, "к".toList, "ь".toList] "кьаб".toList
      = "кь".toList :: tokenizeAux ["кь".toList, "-".toList, " ".toList,
          "а".toList, "б".toList, "в".toList, "к".toList, "ь".toList]
          ("аб".toList).length "аб".toList
    ∧ (sorting_key ["а".toList, "б".toList, "в".toList, "к".toList, "кь".toList,
          "ь".toList]
        ["кь".toList, "-".toList, " ".toList, "а".toList, "б".toList,
          "в".toList, "к".toList, "ь".toList] ⟨"кьаб".toList, none⟩).head?
      = some (letterOrderGet (alphabetFull ["а".toList, "б".toList, "в".toList,
          "к".toList, "кь".toList, "ь".toList]) "кь".toList) :=
  ⟨(tokenize_longest_match _ (by decide) (by decide)).1 "кьаб".toList
      "кь".toList "аб".toList (by decide) (by decide) (by decide),
   (tokenize_longest_match _ (by decide) (by decide)).2.2 _
      ⟨"кьаб".toList, none⟩ "кь".toList "аб".toList (by decide) (by decide)
      (by decide)⟩

/-! ## C5: collation consistency -/

/-- Membership in enumFrom is exactly the positional pairing. -/
theorem mem_enumFrom :
    ∀ (l : List Str) (n : Nat) (p : Nat × Str), p ∈ enumFrom n l →
      ∃ j, ∃ hj : j < l.length, p.1 = n + j ∧ p.2 = l[j] := by
  intro l
  induction l with
  | nil => intro n p h; cases h
  | cons a t ih =>
    intro n p h
    rcases List.mem_cons.mp h with rfl | h2
    · exact ⟨0, by simp, by simp, by simp⟩
    · obtain ⟨j, hj, h1, h2⟩ := ih (n + 1) p h2
      exact ⟨j + 1, by simpa using hj, by omega, by simpa using h2⟩

/-- Conversely, every position occurs in enumFrom. -/
theorem enumFrom_mem :
    ∀ (l : List Str) (n k : Nat) (hk : k < l.length),
      ((n + k : Nat), l[k]) ∈ enumFrom n l := by
  intro l
  induction l with
  | nil => intro n k hk; exact absurd hk (by simp)
  | cons a t ih =>
    intro n k hk
    cases k with
    | zero => simp [enumFrom]
    | succ k2 =>
      have h2 := ih (n + 1) k2 (by simpa using hk)
      simp only [enumFrom, List.mem_cons]
      right
      have heq : n + (k2 + 1) = n + 1 + k2 := by omega
      rw [List.getElem_cons_succ, heq]
      exact h2

/-- find? of a uniquely satisfied predicate returns that element. -/
theorem find?_of_unique {α : Type} (p : α → Bool) :
    ∀ (l : List α) (x : α), x ∈ l → p x = true →
      (∀ y ∈ l, p y = true → y = x) → l.find? p = some x := by
  intro l
  induction l with
  | nil => intro x hx; cases hx
  | cons a t ih =>
    intro x hx hpx huniq
    by_cases hpa : p a = true
    · rw [List.find?_cons_of_pos _ hpa]
      rw [huniq a (List.mem_cons_self a t) hpa]
    · rw [List.find?_cons_of_neg _ (by simpa using hpa)]
      rcases List.mem_cons.mp hx with rfl | hx2
      · exact absurd hpx hpa
      · exact ih x hx2 hpx (fun y hy hpy => huniq y (List.mem_cons_of_mem a hy) hpy)

/-- In a duplicate-free inventory, the rank of the k-th grapheme is k. -/
theorem letterOrderGet_of_getElem (full : List Str) (hnd : full.Nodup)
    (k : Nat) (hk : k < full.length) :
    letterOrderGet full (full[k]) = k := by
  unfold letterOrderGet
  have hmem : ((k : Nat), full[k]) ∈ (enumFrom 0 full).reverse := by
    rw [List.mem_reverse]
    simpa using enumFrom_mem full 0 k hk
  have hfind : (enumFrom 0 full).reverse.find? (fun p => p.2 == full[k])
      = some (k, full[k]) := by
    apply find?_of_unique _ _ _ hmem (by simp)
    intro y hy hpy
    rw [List.mem_reverse] at hy
    obtain ⟨j, hj, hy1, hy2⟩ := mem_enumFrom full 0 y hy
    have hyk : full[j] = full[k] := by
      rw [← hy2]
      simpa using hpy
    have hjk : j = k := by
      by_contra hne
      exact absurd hyk ((List.Nodup.getElem_inj_iff hnd).not.mpr hne)
    rcases y with ⟨y1, y2⟩
    simp only at hy1 hy2
    subst hjk
    rw [hy1, hy2]
    simp
  rw [hfind]

/-- Tokens outside the inventory get the sentinel rank 999. -/
theorem letterOrderGet_unknown (full : List Str) (t : Str)
    (h : t ∉ full) : letterOrderGet full t = 999 := by
  unfold letterOrderGet
  have hfind : (enumFrom 0 full).reverse.find? (fun p => p.2 == t) = none := by
    rw [List.find?_eq_none]
    intro p hp
    rw [List.mem_reverse] at hp
    obtain ⟨j, hj, _, hp2⟩ := mem_enumFrom full 0 p hp
    simp only [beq_iff_eq]
    intro hpt
    exact h (hpt ▸ hp2 ▸ List.getElem_mem hj)
  rw [hfind]

/-- Tokens in the inventory get a rank below its length. -/
theorem letterOrderGet_lt (full : List Str) (t : Str) (h : t ∈ full) :
    letterOrderGet full t < full.length := by
  unfold letterOrderGet
  obtain ⟨k, hk, rfl⟩ := List.mem_iff_getElem.mp h
  have hmem : ((k : Nat), full[k]) ∈ (enumFrom 0 full).reverse := by
    rw [List.mem_reverse]
    simpa using enumFrom_mem full 0 k hk
  cases hfind : (enumFrom 0 full).reverse.find? (fun p => p.2 == full[k]) with
  | none =>
    rw [List.find?_eq_none] at hfind
    have hcontra := hfind _ hmem
    simp at hcontra
  | some p =>
    have hp := List.mem_of_find?_eq_some hfind
    rw [List.mem_reverse] at hp
    obtain ⟨j, hj, hp1, _⟩ := mem_enumFrom full 0 p hp
    simpa [hp1] using hj

/-- **C5** (confirmed): with a duplicate-free augmented inventory of fewer
than 998 graphemes, unknown tokens rank 999 — after every known rank;
hyphen and space rank 0 and 1, before every alphabet grapheme; and keys
compare lexicographically according to the declared alphabet order
whenever the two headwords open with distinct alphabet graphemes. -/
theorem sorting_key_collation (alphabet tokens : List Str)
    (hnd : (alphabetFull alphabet).Nodup)
    (hs : tokens.Pairwise (fun a b => b.length ≤ a.length))
    (hnil : [] ∉ tokens)
    (hlen : alphabet.length ≤ 997) :
    (∀ t, t ∉ alphabetFull alphabet → letterOrderGet (alphabetFull alphabet) t = 999)
    ∧ (∀ t ∈ alphabetFull alphabet, letterOrderGet (alphabetFull alphabet) t < 999)
    ∧ (letterOrderGet (alphabetFull alphabet) ['-'] = 0
        ∧ letterOrderGet (alphabetFull alphabet) [' '] = 1
        ∧ ∀ g ∈ alphabet, 1 < letterOrderGet (alphabetFull alphabet) g)
    ∧ (∀ (e1 e2 : Entry) (a b rest1 rest2 : Str) (i j : Nat),
        alphabet[i]? = some a → alphabet[j]? = some b → i < j →
        (lowerStr e1.headword).filter (fun c => c ≠ stressMark) = a ++ rest1 →
        (lowerStr e2.headword).filter (fun c => c ≠ stressMark) = b ++ rest2 →
        a ∈ tokens → b ∈ tokens →
        (∀ u ∈ tokens, u <+: a ++ rest1 → u.length ≤ a.length) →
        (∀ u ∈ tokens, u <+: b ++ rest2 → u.length ≤ b.length) →
        List.Lex (· < ·) (sorting_key alphabet tokens e1)
          (sorting_key alphabet tokens e2)) := by
  have hfull_len : (alphabetFull alphabet).length = alphabet.length + 2 := by
    simp [alphabetFull]
  have hrank_alpha : ∀ (k : Nat) (hk : k < alphabet.length),
      letterOrderGet (alphabetFull alphabet) (alphabet[k]) = k + 2 := by
    intro k hk
    have hk2 : k + 2 < (alphabetFull alphabet).length := by omega
    have hget : (alphabetFull alphabet)[k + 2] = alphabet[k] := by
      simp [alphabetFull]
    have := letterOrderGet_of_getElem (alphabetFull alphabet) hnd (k + 2) hk2
    rwa [hget] at this
  refine ⟨letterOrderGet_unknown _, ?_, ⟨?_, ?_, ?_⟩, ?_⟩
  · intro t ht
    have := letterOrderGet_lt _ t ht
    omega
  · have h0 : (0 : Nat) < (alphabetFull alphabet).length := by omega
    have := letterOrderGet_of_getElem (alphabetFull alphabet) hnd 0 h0
    simpa [alphabetFull] using this
  · have h1 : (1 : Nat) < (alphabetFull alphabet).length := by omega
    have := letterOrderGet_of_getElem (alphabetFull alphabet) hnd 1 h1
    simpa [alphabetFull] using this
  · intro g hg
    obtain ⟨k, hk, rfl⟩ := List.mem_iff_getElem.mp hg
    rw [hrank_alpha k hk]
    omega
  · intro e1 e2 a b rest1 rest2 i j hia hjb hij hf1 hf2 hat hbt hmax1 hmax2
    obtain ⟨hi, rfl⟩ := List.getElem?_eq_some.mp hia
    obtain ⟨hj, rfl⟩ := List.getElem?_eq_some.mp hjb
    have hane : alphabet[i] ≠ [] := fun h => hnil (h ▸ hat)
    have hbne : alphabet[j] ≠ [] := fun h => hnil (h ▸ hbt)
    have hkey1 : sorting_key alphabet tokens e1
        = letterOrderGet (alphabetFull alphabet) (alphabet[i])
          :: (tokenizeAux tokens rest1.length rest1).map
              (letterOrderGet (alphabetFull alphabet)) := by
      unfold sorting_key tokenize
      have hfix := lowerStr_filter_self e1.headword (fun c => c ≠ stressMark)
      rw [hf1] at hfix
      rw [hf1, hfix, tokenizeAux_consume tokens hs _ rest1 hat hane hmax1]
      simp
    have hkey2 : sorting_key alphabet tokens e2
        = letterOrderGet (alphabetFull alphabet) (alphabet[j])
          :: (tokenizeAux tokens rest2.length rest2).map
              (letterOrderGet (alphabetFull alphabet)) := by
      unfold sorting_key tokenize
      have hfix := lowerStr_filter_self e2.headword (fun c => c ≠ stressMark)
      rw [hf2] at hfix
      rw [hf2, hfix, tokenizeAux_consume tokens hs _ rest2 hbt hbne hmax2]
      simp
    rw [hkey1, hkey2, hrank_alpha i hi, hrank_alpha j hj]
    exact List.Lex.rel (by omega)

/-- Witness for C5: with the alphabet а < б < в, the key of "абаза" is
lexicographically below the key of "баба", hyphen and space rank first,
and an unknown grapheme ranks 999. -/
theorem sorting_key_collation_witness :
    letterOrderGet (alphabetFull ["а".toList, "б".toList, "в".toList])
        "ж".toList = 999
    ∧ letterOrderGet (alphabetFull ["а".toList, "б".toList, "в".toList])
        "б".toList < 999
    ∧ List.Lex (· < ·)
        (sorting_key ["а".toList, "б".toList, "в".toList]
          ["-".toList, " ".toList, "а".toList, "б".toList, "в".toList, "з".toList]
          ⟨"абаза".toList, none⟩)
        (sorting_key ["а".toList, "б".toList, "в".toList]
          ["-".toList, " ".toList, "а".toList, "б".toList, "в".toList, "з".toList]
          ⟨"баба".toList, none⟩) :=
  ⟨(sorting_key_collation ["а".toList, "б".toList, "в".toList]
      ["-".toList, " ".toList, "а".toList, "б".toList, "в".toList, "з".toList]
      (by decide) (by decide) (by decide) (by decide)).1 "ж".toList (by decide),
   (sorting_key_collation ["а".toList, "б".toList, "в".toList]
      ["-".toList, " ".toList, "а".toList, "б".toList, "в".toList, "з".toList]
      (by decide) (by decide) (by decide) (by decide)).2.1 "б".toList (by decide),
   (sorting_key_collation ["а".toList, "б".toList, "в".toList]
      ["-".toList, " ".toList, "а".toList, "б".toList, "в".toList, "з".toList]
      (by decide) (by decide) (by decide) (by decide)).2.2.2
      ⟨"абаза".toList, none⟩ ⟨"баба".toList, none⟩ "а".toList "б".toList
      "база".toList "аба".toList 0 1 (by decide) (by decide) (by decide)
      (by decide) (by decide) (by decide) (by decide) (by decide) (by decide)⟩

/-! ## C7: duplicate-id validation -/

/-- First-match association lookup (Python dict access, keys unique). -/
def assocGet (m : List (Str × List Str)) (i : Str) : List Str :=
  match m with
  | [] => []
  | (k, ps) :: rest => if k = i then ps else assocGet rest i

/-- The keys of the association table. -/
def keysOf (m : List (Str × List Str)) : List Str := m.map Prod.fst

theorem assocGet_addFile_same :
    ∀ (m : List (Str × List Str)) (i : Str) (p : Str),
      assocGet (addFile m i p) i = assocGet m i ++ [p] := by
  intro m i p
  induction m with
  | nil => simp [addFile, assocGet]
  | cons kv rest ih =>
    rcases kv with ⟨k, ps⟩
    by_cases hk : k = i
    · subst hk
      simp [addFile, assocGet]
    · simp [addFile, assocGet, hk, ih]

theorem assocGet_addFile_ne :
    ∀ (m : List (Str × List Str)) (i j p : Str), j ≠ i →
      assocGet (addFile m i p) j = assocGet m j := by
  intro m i j p hji
  have hij : ¬(i = j) := fun h => hji h.symm
  induction m with
  | nil =>
    simp only [addFile, assocGet]
    rw [if_neg hij]
  | cons kv rest ih =>
    rcases kv with ⟨k, ps⟩
    by_cases hk : k = i
    · subst hk
      simp only [addFile, if_pos rfl, assocGet]
      rw [if_neg hij, if_neg hij]
    · simp only [addFile, if_neg hk, assocGet]
      by_cases hkj : k = j
      · simp [hkj]
      · simp [hkj, ih]

theorem keysOf_addFile :
    ∀ (m : List (Str × List Str)) (i : Str) (p : Str),
      keysOf (addFile m i p) = if i ∈ keysOf m then keysOf m else keysOf m ++ [i] := by
  intro m i p
  induction m with
  | nil => simp [addFile, keysOf]
  | cons kv rest ih =>
    rcases kv with ⟨k, ps⟩
    by_cases hk : k = i
    · subst hk
      simp [addFile, keysOf]
    · have hik : ¬(i = k) := fun h => hk h.symm
      simp only [addFile, if_neg hk, keysOf, List.map_cons]
      rw [show  (List.map Prod.fst (addFile rest i p)) = keysOf (addFile rest i p) from rfl,
        ih]
      simp only [keysOf] at *
      by_cases hmem : i ∈ List.map Prod.fst rest
      · simp [List.mem_cons, hmem, hik]
      · simp [List.mem_cons, hmem, hik]

theorem nodup_keysOf_addFile (m : List (Str × List Str)) (i : Str) (p : Str)
    (hnd : (keysOf m).Nodup) : (keysOf (addFile m i p)).Nodup := by
  rw [keysOf_addFile]
  by_cases hmem : i ∈ keysOf m
  · simpa [hmem] using hnd
  · simp only [hmem, if_false]
    rw [List.nodup_append]
    exact ⟨hnd, List.nodup_singleton i, by simpa using hmem⟩

theorem assocGet_of_mem :
    ∀ (m : List (Str × List Str)) (k : Str) (ps : List Str),
      (keysOf m).Nodup → (k, ps) ∈ m → assocGet m k = ps := by
  intro m
  induction m with
  | nil => intro k ps _ h; cases h
  | cons kv rest ih =>
    rcases kv with ⟨k2, ps2⟩
    intro k ps hnd h
    rcases List.mem_cons.mp h with heq | h2
    · cases heq
      simp [assocGet]
    · simp only [keysOf, List.map_cons, List.nodup_cons] at hnd
      by_cases hk : k2 = k
      · subst hk
        exact absurd (by simpa using List.mem_map_of_mem Prod.fst h2) hnd.1
      · simp only [assocGet, if_neg hk]
        exact ih k ps hnd.2 h2

theorem mem_of_assocGet_ne_nil :
    ∀ (m : List (Str × List Str)) (i : Str), assocGet m i ≠ [] →
      (i, assocGet m i) ∈ m := by
  intro m
  induction m with
  | nil => intro i h; exact absurd rfl h
  | cons kv rest ih =>
    rcases kv with ⟨k, ps⟩
    intro i h
    by_cases hk : k = i
    · subst hk
      simp [assocGet]
    · simp only [assocGet, if_neg hk] at h ⊢
      exact List.mem_cons_of_mem _ (ih i h)

/-- The fold that builds id_to_files, described on top of any accumulator:
keys stay duplicate-free and each id is mapped to its previous files plus
all of the files that mention it. -/
theorem id_to_files_fold :
    ∀ (files : List YFile) (m : List (Str × List Str)), (keysOf m).Nodup →
      (keysOf (files.foldl
          (fun m f => match f.entryId with
            | none => m
            | some i => addFile m i f.path) m)).Nodup
      ∧ ∀ i, assocGet (files.foldl
          (fun m f => match f.entryId with
            | none => m
            | some i => addFile m i f.path) m) i
          = assocGet m i ++ filesWithId files i := by
  intro files
  induction files with
  | nil => intro m hnd; exact ⟨hnd, fun i => by simp [filesWithId]⟩
  | cons f rest ih =>
    intro m hnd
    rcases hfid : f.entryId with _ | idf
    · obtain ⟨h1, h2⟩ := ih m hnd
      refine ⟨by simpa [hfid] using h1, fun i => ?_⟩
      have : filesWithId (f :: rest) i = filesWithId rest i := by
        simp [filesWithId, List.filter_cons, hfid]
      rw [this]
      simpa [hfid] using h2 i
    · obtain ⟨h1, h2⟩ := ih (addFile m idf f.path) (nodup_keysOf_addFile m idf f.path hnd)
      refine ⟨by simpa [hfid] using h1, fun i => ?_⟩
      by_cases hi : i = idf
      · subst hi
        have hw : filesWithId (f :: rest) i = f.path :: filesWithId rest i := by
          simp [filesWithId, List.filter_cons, hfid]
        simp only [List.foldl_cons, hfid]
        rw [h2 i, assocGet_addFile_same, hw]
        simp
      · have hne2 : f.entryId ≠ some i := by
          rw [hfid]
          exact fun h => hi (Option.some.inj h).symm
        have hw : filesWithId (f :: rest) i = filesWithId rest i := by
          simp [filesWithId, List.filter_cons, hne2]
        simp only [List.foldl_cons, hfid]
        rw [h2 i, assocGet_addFile_ne m idf i f.path hi, hw]

/-- **C7** (confirmed): validate_id_collisions returns None exactly when
some id occurs in more than one file; in that case the report contains
every colliding id together with all of the files carrying it; on success
it returns True with an empty collision report, and those are the only
two outcomes. -/
theorem validate_id_collisions_spec (files : List YFile) :
    (validate_id_collisions files = none ↔ ∃ i, 1 < (filesWithId files i).length)
    ∧ (∀ i, 1 < (filesWithId files i).length →
        (i, filesWithId files i) ∈ collisions files)
    ∧ (validate_id_collisions files = some true → collisions files = [])
    ∧ (validate_id_collisions files = none ∨ validate_id_collisions files = some true) := by
  obtain ⟨hnd, hget⟩ := id_to_files_fold files [] (by simp [keysOf])
  have hget2 : ∀ i, assocGet (id_to_files files) i = filesWithId files i := by
    intro i
    have := hget i
    simpa [assocGet] using this
  have hmem : ∀ i, 1 < (filesWithId files i).length →
      (i, filesWithId files i) ∈ collisions files := by
    intro i hi
    have hne : filesWithId files i ≠ [] := by
      intro h
      rw [h] at hi
      simp at hi
    have hm : (i, assocGet (id_to_files files) i) ∈ id_to_files files := by
      apply mem_of_assocGet_ne_nil
      rw [hget2 i]
      exact hne
    rw [hget2 i] at hm
    unfold collisions
    rw [List.mem_filter]
    exact ⟨hm, by simpa using hi⟩
  refine ⟨⟨?_, ?_⟩, hmem, ?_, ?_⟩
  · intro hv
    unfold validate_id_collisions at hv
    by_cases hc : collisions files = []
    · simp [hc] at hv
    · obtain ⟨p, hp⟩ := List.exists_mem_of_ne_nil _ hc
      have hp2 := List.mem_filter.mp hp
      have hplen : 1 < p.2.length := by simpa using hp2.2
      have hpm : p ∈ id_to_files files := hp2.1
      rcases p with ⟨pi, pps⟩
      have : assocGet (id_to_files files) pi = pps :=
        assocGet_of_mem (id_to_files files) pi pps hnd hpm
      rw [hget2 pi] at this
      exact ⟨pi, this ▸ hplen⟩
  · intro ⟨i, hi⟩
    unfold validate_id_collisions
    have := hmem i hi
    have hc : collisions files ≠ [] := fun h => by simp [h] at this
    simp [hc]
  · intro hv
    unfold validate_id_collisions at hv
    by_cases hc : collisions files = []
    · exact hc
    · simp [hc] at hv
  · unfold validate_id_collisions
    by_cases hc : collisions files = []
    · simp [hc]
    · simp [hc]

/-- Witness for C7: two files sharing id w42 are both reported and the
validator fails; with unique ids it succeeds. -/
theorem validate_id_collisions_witness :
    validate_id_collisions
        [⟨"f1".toList, some "w42".toList⟩, ⟨"f2".toList, some "w42".toList⟩,
         ⟨"f3".toList, some "w7".toList⟩] = none
    ∧ ("w42".toList,
        filesWithId
          [⟨"f1".toList, some "w42".toList⟩, ⟨"f2".toList, some "w42".toList⟩,
           ⟨"f3".toList, some "w7".toList⟩] "w42".toList)
        ∈ collisions
          [⟨"f1".toList, some "w42".toList⟩, ⟨"f2".toList, some "w42".toList⟩,
           ⟨"f3".toList, some "w7".toList⟩]
    ∧ validate_id_collisions
        [⟨"f1".toList, some "w1".toList⟩, ⟨"f2".toList, some "w2".toList⟩]
        = some true :=
  ⟨(validate_id_collisions_spec _).1.mpr ⟨"w42".toList, by decide⟩,
   (validate_id_collisions_spec _).2.1 "w42".toList (by decide),
   ((validate_id_collisions_spec
      [⟨"f1".toList, some "w1".toList⟩, ⟨"f2".toList, some "w2".toList⟩]).2.2.2).resolve_left
      (by decide)⟩

/-! ## C9: missing required fields -/

/-- Spec-side: the records of a directory kept by the loader — those that
load and pass validation, in file order. -/
def specValidFiles (validate : YamlRec → Bool) (files : List (Option YamlRec)) :
    List YamlRec :=
  files.filterMap (fun f => f.bind (fun y => if validate y then some y else none))

/-- Spec-side: how many files of a directory are skipped (load error or
failed validation). -/
def specSkippedOfFiles (validate : YamlRec → Bool) (files : List (Option YamlRec)) :
    Nat :=
  files.countP (fun f => match f with | none => true | some y => !validate y)

/-- Spec-side: per-letter entry lists over the letters whose directory
exists. -/
def specEBL (validate : YamlRec → Bool) (alphabet : List Str)
    (fs : Str → Option (List (Option YamlRec))) : List (Str × List YamlRec) :=
  alphabet.filterMap
    (fun l => (fs l).map (fun files => (l, specValidFiles validate files)))

/-- Spec-side: total kept entries across existing directories. -/
def specTotal (validate : YamlRec → Bool) (alphabet : List Str)
    (fs : Str → Option (List (Option YamlRec))) : Nat :=
  (alphabet.map (fun l => match fs l with
    | none => 0
    | some files => (specValidFiles validate files).length)).sum

/-- Spec-side: total skipped entries across existing directories. -/
def specSkipped (validate : YamlRec → Bool) (alphabet : List Str)
    (fs : Str → Option (List (Option YamlRec))) : Nat :=
  (alphabet.map (fun l => match fs l with
    | none => 0
    | some files => specSkippedOfFiles validate files)).sum

theorem processFiles_spec (validate : YamlRec → Bool) :
    ∀ files : List (Option YamlRec),
      processFiles validate files
        = (specValidFiles validate files,
           (specValidFiles validate files).length,
           specSkippedOfFiles validate files) := by
  intro files
  induction files with
  | nil => rfl
  | cons f rest ih =>
    cases f with
    | none =>
      simp only [processFiles, ih, specValidFiles, List.filterMap_cons,
        specSkippedOfFiles, List.countP_cons, Option.bind]
      simp
    | some y =>
      by_cases hv : validate y = true
      · simp [processFiles, ih, specValidFiles, List.filterMap_cons,
          specSkippedOfFiles, List.countP_cons, Option.bind, hv]
      · simp only [Bool.not_eq_true] at hv
        simp [processFiles, ih, specValidFiles, List.filterMap_cons,
          specSkippedOfFiles, List.countP_cons, Option.bind, hv]

/-- **C9 counterexample**: a directory containing one entry that lacks the
headword field and one complete entry: the invalid entry is skipped and
counted (skipped = 1) while the valid one is still exported, yet
to_csv exits 0, so the exit status does not reflect the skip. -/
theorem load_lexicon_exit_counterexample :
    (load_lexicon_entries validate_entry ["а".toList]
        (fun l => if l = "а".toList
          then some [some ⟨true, false, true, 0⟩, some ⟨true, true, true, 1⟩]
          else none)).2.2 = 1
    ∧ (load_lexicon_entries validate_entry ["а".toList]
        (fun l => if l = "а".toList
          then some [some ⟨true, false, true, 0⟩, some ⟨true, true, true, 1⟩]
          else none)).1 = [("а".toList, [⟨true, true, true, 1⟩])]
    ∧ to_csv_exitCode ["а".toList]
        (fun l => if l = "а".toList
          then some [some ⟨true, false, true, 0⟩, some ⟨true, true, true, 1⟩]
          else none) = 0 := by
  refine ⟨?_, ?_, rfl⟩ <;> rfl

/-- **C9** (corrected): an entry lacking a required field is skipped and
counted while the batch continues (the loader returns exactly the
validated records, with total = kept and skipped = failed-or-erroring
files); but the export process always exits 0 regardless of skips — only
the separate validate.py exit status reflects a validation failure. -/
theorem load_lexicon_skip_spec :
    (∀ (validate : YamlRec → Bool) (alphabet : List Str)
        (fs : Str → Option (List (Option YamlRec))),
      load_lexicon_entries validate alphabet fs
        = (specEBL validate alphabet fs, specTotal validate alphabet fs,
           specSkipped validate alphabet fs))
    ∧ (∀ (y : YamlRec),
        validate_entry y = (y.hasId && y.hasHeadword && y.hasDefs))
    ∧ (∀ (alphabet : List Str) (fs : Str → Option (List (Option YamlRec))),
        to_csv_exitCode alphabet fs = 0)
    ∧ (∀ files : List YFile,
        (validate_exitCode files = 1 ↔ validate_id_collisions files = none)) := by
  refine ⟨?_, fun y => rfl, fun _ _ => rfl, ?_⟩
  · intro validate alphabet fs
    induction alphabet with
    | nil => rfl
    | cons letter rest ih =>
      simp only [load_lexicon_entries, ih]
      cases hfl : fs letter with
      | none =>
        simp [specEBL, specTotal, specSkipped, List.filterMap_cons, hfl]
      | some files =>
        simp [specEBL, specTotal, specSkipped, List.filterMap_cons, hfl,
          processFiles_spec]
  · intro files
    unfold validate_exitCode
    cases hv : validate_id_collisions files with
    | none => simp
    | some b => simp

/-! ## C1: the predictability pass -/

theorem deleteAt_sublist (l : Str) (n : Nat) : (deleteAt l n).Sublist l := by
  have h1 : (l.drop (n + 1)).Sublist (l.drop n) := by
    have hd := List.drop_sublist 1 (l.drop n)
    rwa [List.drop_drop] at hd
  have h2 : (l.take n ++ l.drop (n + 1)).Sublist (l.take n ++ l.drop n) :=
    List.Sublist.append_left h1 _
  unfold deleteAt
  rw [← List.take_append_drop n l]
  simpa using h2

/-- The predictability pass only deletes characters. -/
theorem predPassAux_sublist (vm : VMap) :
    ∀ (fuel : Nat) (ipa : Str) (iS : Int) (iW vC iC : Nat),
      (predPassAux vm fuel ipa iS iW vC iC).Sublist ipa := by
  intro fuel
  induction fuel with
  | zero => intro ipa iS iW vC iC; exact List.Sublist.refl ipa
  | succ f ih =>
    intro ipa iS iW vC iC
    simp only [predPassAux]
    split
    · repeat' split
      all_goals first
        | exact (ih _ _ _ _ _).trans (deleteAt_sublist _ _)
        | exact ih _ _ _ _ _
        | exact List.Sublist.refl _
    · exact List.Sublist.refl _

/-- A marker-free string stays marker-free through the pass. -/
theorem predPassAux_count_zero (vm : VMap) (fuel : Nat) (ipa : Str)
    (iS : Int) (iW vC iC : Nat) (h : ipa.count marker = 0) :
    (predPassAux vm fuel ipa iS iW vC iC).count marker = 0 :=
  Nat.le_zero.mp (h ▸ (predPassAux_sublist vm fuel ipa iS iW vC iC).count_le marker)

/-- A string holding exactly one marker splits around it. -/
theorem count_eq_one_decomp (l : Str) (h : l.count marker = 1) :
    ∃ A B, l = A ++ marker :: B ∧ A.count marker = 0 ∧ B.count marker = 0 := by
  induction l with
  | nil => simp at h
  | cons c rest ih =>
    by_cases hc : c = marker
    · subst hc
      have hr : rest.count marker = 0 := by
        have := List.count_cons_self marker rest
        omega
      exact ⟨[], rest, rfl, by simp, hr⟩
    · have hr : rest.count marker = 1 := by
        rw [List.count_cons] at h
        simpa [hc] using h
      obtain ⟨A, B, rfl, hA, hB⟩ := ih hr
      exact ⟨c :: A, B, rfl, by simp [List.count_cons, hc, hA], hB⟩

/-- Extending the current-segment window by the character under the
cursor. -/
theorem seg_take_succ (l : Str) (iW iC : Nat) (hiw : iW ≤ iC)
    (hic : iC < l.length) :
    (l.drop iW).take (iC + 1 - iW) = (l.drop iW).take (iC - iW) ++ [l[iC]] := by
  have h1 : iC + 1 - iW = (iC - iW) + 1 := by omega
  rw [h1, List.take_succ]
  congr 1
  rw [List.getElem?_drop, show iW + (iC - iW) = iC from by omega,
    List.getElem?_eq_getElem hic]
  rfl

/-- The current-segment vowel count never exceeds the whole string's. -/
theorem segCount_le (vm : VMap) (l : Str) (iW n : Nat) :
    vowelCount vm ((l.drop iW).take n) ≤ vowelCount vm l :=
  List.Sublist.countP_le _ (((l.drop iW).take_sublist n).trans (l.drop_sublist iW))

/-- The element sitting right after the left part of a split. -/
theorem getElem_middle :
    ∀ (A : Str) (c : Char) (B : Str) (h : A.length < (A ++ c :: B).length),
      (A ++ c :: B)[A.length] = c := by
  intro A
  induction A with
  | nil => intro c B h; rfl
  | cons a A ih =>
    intro c B h
    simp only [List.cons_append, List.length_cons, List.getElem_cons_succ]
    exact ih c B (by simpa using h)

/-- Elements past the middle of a split sit in the right part. -/
theorem getElem_right_tail :
    ∀ (A : Str) (c : Char) (B : Str) (i : Nat) (h1 : A.length < i)
      (h2 : i < (A ++ c :: B).length),
      (A ++ c :: B)[i] ∈ B := by
  intro A
  induction A with
  | nil =>
    intro c B i h1 h2
    simp only [List.length_nil] at h1
    obtain ⟨j, rfl⟩ : ∃ j, i = j + 1 := ⟨i - 1, by omega⟩
    simp only [List.nil_append, List.getElem_cons_succ]
    exact List.getElem_mem _
  | cons a A ih =>
    intro c B i h1 h2
    simp only [List.length_cons] at h1
    obtain ⟨j, rfl⟩ : ∃ j, i = j + 1 := ⟨i - 1, by omega⟩
    simp only [List.cons_append, List.getElem_cons_succ]
    exact ih c B j (by omega) (by simpa using h2)

/-- Deleting exactly the middle of a split. -/
theorem deleteAt_middle (A : Str) (c : Char) (B : Str) :
    deleteAt (A ++ c :: B) A.length = A ++ B := by
  unfold deleteAt
  congr 1
  · rw [List.take_left]
  · rw [show A.length + 1 = (A ++ [c]).length from by simp,
      show A ++ c :: B = (A ++ [c]) ++ B from by simp]
    exact List.drop_left _ _

theorem marker_not_sep : ¬(marker = ' ' ∨ marker = '-') := by decide

/-- A character of a marker-free string is not the marker. -/
theorem ne_marker_of_count_zero (l : Str) (h : l.count marker = 0) (c : Char)
    (hc : c ∈ l) : c ≠ marker := by
  intro heq
  subst heq
  rw [← List.count_pos_iff] at hc
  omega

/-- Invariant lemma for the predictability pass: started anywhere before a
single marker (with a stale stress index) or after it (with the stress
index on it), on a string holding at most one vowel, the loop deletes the
marker: the result is marker-free. -/
theorem predPass_single_marker (vm : VMap) :
    ∀ (fuel : Nat) (A B : Str) (iStress : Int) (iWord vCount iChar : Nat),
      (A ++ marker :: B).length - iChar < fuel →
      A.count marker = 0 → B.count marker = 0 →
      vowelCount vm (A ++ marker :: B) ≤ 1 →
      iWord ≤ iChar →
      vCount ≤ vowelCount vm (((A ++ marker :: B).drop iWord).take (iChar - iWord)) →
      ((iChar ≤ A.length ∧ iStress < (iWord : Int))
        ∨ (iWord ≤ A.length ∧ A.length < iChar ∧ iChar < (A ++ marker :: B).length
            ∧ iStress = (A.length : Int))) →
      (predPassAux vm fuel (A ++ marker :: B) iStress iWord vCount iChar).count marker
        = 0 := by
  intro fuel
  induction fuel with
  | zero =>
    intro A B iStress iWord vCount iChar hfuel
    exact absurd hfuel (by omega)
  | succ f ih =>
    intro A B iStress iWord vCount iChar hfuel hA hB hv hiw hvc hM
    have hlen : (A ++ marker :: B).length = A.length + B.length + 1 := by
      simp only [List.length_append, List.length_cons]
      omega
    have hic : iChar < (A ++ marker :: B).length := by
      rcases hM with ⟨h1, _⟩ | ⟨_, _, h3, _⟩
      · omega
      · exact h3
    have hsingle : ∀ x : Char,
        List.countP (fun c => isVowel vm c) [x]
          = if isVowel vm x = true then 1 else 0 := by
      intro x
      by_cases hx : isVowel vm x = true <;>
        simp [List.countP_cons, List.countP_nil, hx]
    simp only [predPassAux]
    rw [dif_pos hic]
    rcases hM with ⟨hM1a, hM1b⟩ | ⟨hM2a, hM2b, hM2c, hM2d⟩
    · rcases Nat.lt_or_eq_of_le hM1a with hlt | heq
      · -- M1, cursor strictly before the marker: current char is in A
        have hcA : (A ++ marker :: B)[iChar] = A[iChar] :=
          List.getElem_append_left hlt
        have hcm : ¬((A ++ marker :: B)[iChar] = marker) := by
          rw [hcA]
          exact ne_marker_of_count_zero A hA _ (List.getElem_mem _)
        rw [if_neg hcm, if_neg hcm]
        have hvc2 : (if isVowel vm (A ++ marker :: B)[iChar] = true
            then vCount + 1 else vCount)
            ≤ vowelCount vm
              (((A ++ marker :: B).drop iWord).take (iChar + 1 - iWord)) := by
          rw [seg_take_succ _ _ _ hiw hic]
          unfold vowelCount at hvc ⊢
          rw [List.countP_append, hsingle]
          by_cases hveq : isVowel vm ((A ++ marker :: B)[iChar]) = true
          · rw [if_pos hveq, if_pos hveq]
            omega
          · rw [if_neg hveq, if_neg hveq]
            omega
        have hnotlast : ¬(iChar = (A ++ marker :: B).length - 1) := by omega
        by_cases hsep : (A ++ marker :: B)[iChar] = ' ' ∨ (A ++ marker :: B)[iChar] = '-'
        · rw [if_pos (by tauto)]
          rw [if_neg (by
            intro hand
            have := hand.2
            omega)]
          apply ih A B iStress (iChar + 1) 0 (iChar + 1) (by omega) hA hB hv
            (le_refl _) (Nat.zero_le _) (Or.inl ⟨by omega, by omega⟩)
        · rw [if_neg (by
            intro hor
            rcases hor with h1 | h1 | h1
            · exact hsep (Or.inl h1)
            · exact hsep (Or.inr h1)
            · exact hnotlast h1)]
          apply ih A B iStress iWord
            (if isVowel vm (A ++ marker :: B)[iChar] = true then vCount + 1 else vCount)
            (iChar + 1) (by omega) hA hB hv (by omega) hvc2
            (Or.inl ⟨by omega, hM1b⟩)
      · -- M1, the cursor sits on the marker
        subst heq
        have hcm : (A ++ marker :: B)[A.length] = marker := getElem_middle A marker B hic
        rw [if_pos hcm, if_pos hcm]
        have hsegle : vCount ≤ 1 := by
          have h2 := segCount_le vm (A ++ marker :: B) iWord (A.length - iWord)
          omega
        by_cases hBnil : B = []
        · subst hBnil
          have hlast : A.length = (A ++ marker :: []).length - 1 := by
            rw [hlen]
            simp only [List.length_nil]
            omega
          rw [if_pos (Or.inr (Or.inr hlast))]
          rw [if_pos ⟨hsegle, by omega⟩]
          rw [if_pos (by
            rw [hlen]
            simp only [List.length_nil]
            omega)]
          have hdel : deleteAt (A ++ marker :: []) ((A.length : Int)).toNat = A ++ [] := by
            rw [show ((A.length : Int)).toNat = A.length from by omega]
            exact deleteAt_middle A marker []
          rw [hdel]
          refine predPassAux_count_zero vm f (A ++ []) _ _ _ _ ?_
          rw [List.count_append, hA]
          rfl
        · have hBlen : 0 < B.length := List.length_pos.mpr hBnil
          have hnotlast : ¬(A.length = (A ++ marker :: B).length - 1) := by omega
          rw [if_neg (by
            intro hor
            rcases hor with h1 | h1 | h1
            · exact marker_not_sep (Or.inl (hcm ▸ h1))
            · exact marker_not_sep (Or.inr (hcm ▸ h1))
            · exact hnotlast h1)]
          apply ih A B ((A.length : Int)) iWord vCount (A.length + 1) (by omega)
            hA hB hv (by omega) (by
              rw [seg_take_succ _ _ _ hiw hic]
              unfold vowelCount at hvc ⊢
              rw [List.countP_append]
              omega)
            (Or.inr ⟨by omega, by omega, by omega, rfl⟩)
    · -- M2: the marker is behind the cursor and iStress points at it
      have hcB : (A ++ marker :: B)[iChar] ∈ B :=
        getElem_right_tail A marker B iChar hM2b hM2c
      have hcm : ¬((A ++ marker :: B)[iChar] = marker) :=
        ne_marker_of_count_zero B hB _ hcB
      rw [if_neg hcm, if_neg hcm]
      have hvc2 : (if isVowel vm (A ++ marker :: B)[iChar] = true
          then vCount + 1 else vCount)
          ≤ vowelCount vm
            (((A ++ marker :: B).drop iWord).take (iChar + 1 - iWord)) := by
        rw [seg_take_succ _ _ _ hiw hic]
        unfold vowelCount at hvc ⊢
        rw [List.countP_append, hsingle]
        by_cases hveq : isVowel vm ((A ++ marker :: B)[iChar]) = true
        · rw [if_pos hveq, if_pos hveq]
          omega
        · rw [if_neg hveq, if_neg hveq]
          omega
      have hvcle1 : (if isVowel vm (A ++ marker :: B)[iChar] = true
          then vCount + 1 else vCount) ≤ 1 := by
        have h2 := segCount_le vm (A ++ marker :: B) iWord (iChar + 1 - iWord)
        unfold vowelCount at hvc2 h2 hv
        omega
      by_cases hbd : (A ++ marker :: B)[iChar] = ' ' ∨ (A ++ marker :: B)[iChar] = '-'
          ∨ iChar = (A ++ marker :: B).length - 1
      · rw [if_pos hbd]
        rw [if_pos ⟨hvcle1, by rw [hM2d]; omega⟩]
        rw [if_pos (by rw [hM2d, hlen]; omega)]
        have hdel : deleteAt (A ++ marker :: B) (iStress.toNat) = A ++ B := by
          rw [show iStress.toNat = A.length from by rw [hM2d]; omega]
          exact deleteAt_middle A marker B
        rw [hdel]
        refine predPassAux_count_zero vm f (A ++ B) _ _ _ _ ?_
        rw [List.count_append, hA, hB]
      · rw [if_neg hbd]
        push_neg at hbd
        apply ih A B iStress iWord
          (if isVowel vm (A ++ marker :: B)[iChar] = true then vCount + 1 else vCount)
          (iChar + 1) (by omega) hA hB hv (by omega) hvc2
          (Or.inr ⟨hM2a, by omega, by omega, hM2d⟩)

/-- **C1** (corrected): for every entry with a non-empty IPA string that,
after normalizing ˈ and ˌ to the uniform marker, contains exactly one
vowel symbol (per the vowel map) and at most one stress marker, the
predictability pass deletes the marker and mark_stress returns the
headword unchanged. -/
theorem mark_stress_single_vowel (e : Entry) (vm : VMap) (raw : Str)
    (hipa : e.ipa = some raw) (hne : raw ≠ [])
    (hv : vowelCount vm (normalizeIpa raw) = 1)
    (hm : markerCount (normalizeIpa raw) ≤ 1) :
    mark_stress e vm = e.headword := by
  rcases e with ⟨hw, ipa⟩
  cases hipa
  simp only [mark_stress]
  rw [if_neg (fun h => hne (List.isEmpty_iff.mp h))]
  have hzero : (predPass vm (normalizeIpa raw)).count marker = 0 := by
    unfold markerCount at hm
    rcases Nat.le_one_iff_eq_zero_or_eq_one.mp hm with h0 | h1
    · exact predPassAux_count_zero vm _ _ _ _ _ _ h0
    · obtain ⟨A, B, hAB, hA, hB⟩ := count_eq_one_decomp _ h1
      unfold predPass
      rw [hAB]
      apply predPass_single_marker vm ((A ++ marker :: B).length + 1) A B (-1) 0 0 0
        (by omega) hA hB (by rw [← hAB]; omega) (le_refl 0) (Nat.zero_le _)
        (Or.inl ⟨Nat.zero_le _, by omega⟩)
  rw [if_neg (List.count_eq_zero.mp hzero)]

/-- **C1 counterexample**: an IPA string with a single vowel but two
stress markers — only the last-seen marker of the segment is deleted, the
first survives the predictability pass and the headword comes back
modified (here with a combining acute appended to its only vowel). -/
theorem mark_stress_single_vowel_counterexample :
    vowelCount [('a', "а".toList)] (normalizeIpa ("ˈˈa".toList)) = 1
    ∧ mark_stress ⟨"а".toList, some ("ˈˈa".toList)⟩ [('a', "а".toList)]
        ≠ "а".toList := by
  constructor
  · decide
  · decide

/-- Witness for C1 at the spec's own example: single-vowel "aˈxʷ" loses
its marker and "ахъ" is returned unchanged. -/
theorem mark_stress_single_vowel_witness :
    mark_stress ⟨"ахъ".toList, some "aˈxʷ".toList⟩ [('a', "а".toList)]
      = "ахъ".toList :=
  mark_stress_single_vowel ⟨"ахъ".toList, some "aˈxʷ".toList⟩
    [('a', "а".toList)] ("aˈxʷ".toList) rfl (by decide) (by decide) (by decide)

/-! ## C2: the placement pass -/

/-- Over a marker-free prefix with the needs-stress flag down, the
placement pass only moves the cursor, exactly as the chainFind matcher. -/
theorem placePass_append_markerFree (vm : VMap) :
    ∀ (pre rest hw : Str) (s : Nat), pre.count marker = 0 →
      placePass vm (pre ++ rest) hw s false
        = match chainFind vm pre hw s with
          | some t => placePass vm rest hw t false
          | none => none := by
  intro pre
  induction pre with
  | nil => intro rest hw s _; simp [chainFind]
  | cons c pre ih =>
    intro rest hw s hcount
    have hcm : ¬(c = marker) := by
      intro h
      subst h
      rw [List.count_cons_self] at hcount
      omega
    have htail : pre.count marker = 0 := by
      rw [List.count_cons] at hcount
      omega
    simp only [List.cons_append, placePass, chainFind]
    rw [if_neg hcm]
    by_cases hvw : isVowel vm c = true
    · rw [if_pos hvw, if_pos hvw]
      cases hfs : findSub hw (vget vm c) s with
      | none => rfl
      | some i =>
        dsimp only
        rw [if_neg Bool.false_ne_true]
        exact ih rest hw (i + 1) htail
    · rw [if_neg hvw, if_neg hvw]
      exact ih rest hw s htail

/-- Marker-free, vowel-free characters are skipped with the flag up. -/
theorem placePass_skip (vm : VMap) :
    ∀ (mid rest hw : Str) (s : Nat), mid.count marker = 0 →
      vowelCount vm mid = 0 →
      placePass vm (mid ++ rest) hw s true = placePass vm rest hw s true := by
  intro mid
  induction mid with
  | nil => intro rest hw s _ _; rfl
  | cons c mid ih =>
    intro rest hw s hcount hvow
    have hcm : ¬(c = marker) := by
      intro h
      subst h
      rw [List.count_cons_self] at hcount
      omega
    have htail : mid.count marker = 0 := by
      rw [List.count_cons] at hcount
      omega
    have hvw : ¬(isVowel vm c = true) := by
      intro h
      unfold vowelCount at hvow
      rw [List.countP_cons] at hvow
      simp [h] at hvow
    have hvtail : vowelCount vm mid = 0 := by
      unfold vowelCount at hvow ⊢
      rw [List.countP_cons] at hvow
      omega
    simp only [List.cons_append, placePass]
    rw [if_neg hcm, if_neg hvw]
    exact ih rest hw s htail hvtail

/-- After the single insertion, a marker-free remainder leaves the
headword untouched. -/
theorem placePass_tail_no_insert (vm : VMap) :
    ∀ (tail hw : Str) (s : Nat) (out : Str), tail.count marker = 0 →
      placePass vm tail hw s false = some out → out = hw := by
  intro tail
  induction tail with
  | nil =>
    intro hw s out _ h
    simp only [placePass, Option.some.injEq] at h
    rw [h]
  | cons c tail ih =>
    intro hw s out hcount h
    have hcm : ¬(c = marker) := by
      intro hx
      subst hx
      rw [List.count_cons_self] at hcount
      omega
    have htail : tail.count marker = 0 := by
      rw [List.count_cons] at hcount
      omega
    simp only [placePass] at h
    rw [if_neg hcm] at h
    by_cases hvw : isVowel vm c = true
    · rw [if_pos hvw] at h
      cases hfs : findSub hw (vget vm c) s with
      | none => rw [hfs] at h; cases h
      | some i =>
        rw [hfs] at h
        dsimp only at h
        rw [if_neg Bool.false_ne_true] at h
        exact ih hw (i + 1) out htail h
    · rw [if_neg hvw] at h
      exact ih hw s out htail h

/-- **C2** (corrected): when the simplified IPA holds exactly one marker
and that marker is followed (possibly after consonants) by a vowel
symbol, and the whole placement run succeeds, mark_stress returns the
headword with exactly one combining acute inserted immediately after the
grapheme occurrence matched for the marked vowel — the match position
being found by scanning each vowel's grapheme strictly after the previous
match, left to right. -/
theorem mark_stress_placement (e : Entry) (vm : VMap) (raw pre mid tail : Str)
    (v : Char) (out : Str)
    (hnv : isVowel vm marker = false)
    (hipa : e.ipa = some raw) (hne : raw ≠ [])
    (hdec : predPass vm (normalizeIpa raw) = pre ++ marker :: (mid ++ v :: tail))
    (hpre : pre.count marker = 0) (hmid : mid.count marker = 0)
    (htail : tail.count marker = 0)
    (hmidv : vowelCount vm mid = 0) (hv : isVowel vm v = true)
    (hsucc : placePass vm (pre ++ marker :: (mid ++ v :: tail)) e.headword 0 false
        = some out) :
    ∃ s0 i, chainFind vm pre e.headword 0 = some s0
      ∧ findSub e.headword (vget vm v) s0 = some i
      ∧ mark_stress e vm
          = e.headword.take (i + 1) ++ stressMark :: e.headword.drop (i + 1)
      ∧ (mark_stress e vm).count stressMark
          = e.headword.count stressMark + 1 := by
  rcases e with ⟨hw, ipa⟩
  cases hipa
  simp only at hsucc ⊢
  have hsucc0 := hsucc
  rw [placePass_append_markerFree vm pre _ hw 0 hpre] at hsucc
  cases hchain : chainFind vm pre hw 0 with
  | none => rw [hchain] at hsucc; cases hsucc
  | some s0 =>
    rw [hchain] at hsucc
    simp only [placePass, if_true] at hsucc
    rw [if_neg (by rw [hnv]; exact Bool.false_ne_true)] at hsucc
    rw [placePass_skip vm mid _ hw s0 hmid hmidv] at hsucc
    have hvm : ¬(v = marker) := by
      intro h
      rw [h, hnv] at hv
      cases hv
    simp only [placePass] at hsucc
    rw [if_neg hvm, if_pos hv] at hsucc
    cases hfs : findSub hw (vget vm v) s0 with
    | none => rw [hfs] at hsucc; cases hsucc
    | some i =>
      rw [hfs] at hsucc
      dsimp only at hsucc
      have hout : out = insertMark hw (i + 1) :=
        placePass_tail_no_insert vm tail _ _ out htail hsucc
      have hms : mark_stress ⟨hw, some raw⟩ vm = insertMark hw (i + 1) := by
        simp only [mark_stress]
        rw [if_neg (fun h => hne (List.isEmpty_iff.mp h))]
        rw [if_pos (by
          rw [hdec]
          exact List.mem_append_right _ (List.mem_cons_self _ _))]
        rw [hdec, hsucc0, hout]
      refine ⟨s0, i, rfl, hfs, ?_, ?_⟩
      · rw [hms]
        rfl
      · rw [hms]
        have h1 : (insertMark hw (i + 1)).count stressMark
            = (hw.take (i + 1)).count stressMark
              + ((hw.drop (i + 1)).count stressMark + 1) := by
          unfold insertMark
          rw [List.count_append, List.count_cons_self]
        have h2 : hw.count stressMark
            = (hw.take (i + 1)).count stressMark
              + (hw.drop (i + 1)).count stressMark := by
          rw [← List.count_append, List.take_append_drop]
        omega

/-- **C2 counterexample**: ipa "aaˈ" — the simplified IPA still holds
exactly one marker and every grapheme lookup succeeds, yet the marker is
followed by no vowel, so mark_stress inserts no combining mark at all
instead of exactly one. -/
theorem mark_stress_placement_counterexample :
    markerCount (predPass [('a', "а".toList)] (normalizeIpa "aaˈ".toList)) = 1
    ∧ placePass [('a', "а".toList)]
        (predPass [('a', "а".toList)] (normalizeIpa "aaˈ".toList))
        "аа".toList 0 false = some ("аа".toList)
    ∧ (mark_stress ⟨"аа".toList, some "aaˈ".toList⟩
        [('a', "а".toList)]).count stressMark = 0 :=
  ⟨by decide, by decide, by decide⟩

/-- Witness for C2 at the spec's two-vowel example: "buˈrul" stresses the
second у of "бурул". -/
theorem mark_stress_placement_witness :
    ∃ s0 i, chainFind [('u', "у".toList)] "bu".toList "бурул".toList 0 = some s0
      ∧ findSub "бурул".toList (vget [('u', "у".toList)] 'u') s0 = some i
      ∧ mark_stress ⟨"бурул".toList, some "buˈrul".toList⟩ [('u', "у".toList)]
          = ("бурул".toList).take (i + 1)
            ++ stressMark :: ("бурул".toList).drop (i + 1)
      ∧ (mark_stress ⟨"бурул".toList, some "buˈrul".toList⟩
            [('u', "у".toList)]).count stressMark
          = ("бурул".toList).count stressMark + 1 :=
  mark_stress_placement ⟨"бурул".toList, some "buˈrul".toList⟩
    [('u', "у".toList)] ("buˈrul".toList) "bu".toList "r".toList "l".toList
    'u' "буру́л".toList (by decide) rfl (by decide) (by decide) (by decide)
    (by decide) (by decide) (by decide) (by decide) (by decide)

end Dict
